import Mathlib

/-!
# Exam booking system: a shallow embedding

Shallow embedding of `src/main.py`: an in-memory exam registry indexed by
room number with an unbalanced binary search tree (class `ExamBookingSystem`).

Modelling conventions:
* Python `datetime` is modelled by the `DateTime` structure below; its
  `.date()` projection (calendar day) is `DateTime.date`.
* Python `int` is `Int`; the `isinstance(..., int)` / `isinstance(..., datetime)`
  checks in `validate_exam_data` and `find_exams_in_range` are discharged by
  typing (fields are well-typed by construction) and so never fail here.
* The regex `^[A-Z]{3}-\d{3}-\d{3}$` of `validate_exam_data` is modelled over
  ASCII (`Char.isUpper` / `Char.isDigit`), as the pattern describes.
* Python exceptions (`ValueError` with distinct messages) become the
  `BookError` inductive; a raising method returns `Except BookError α` and
  mutation of `self` becomes explicit state passing, so an `Except.error`
  result leaves the caller's `ExamBookingSystem` untouched, exactly as the
  Python code raises before any mutation.
* `book_exam` in the source returns a `bool` (`False` when the location is
  already occupied on a different day) besides raising; it is modelled as
  `Except BookError (Bool × ExamBookingSystem)`.
* Python `sorted(result, key=lambda x: x.location)` is modelled by
  `List.insertionSort` on the location order.
-/

/-- `datetime`: calendar day plus time-of-day, as used by the source
(`datetime(2024, 12, 1, 9, 0)`). -/
structure DateTime where
  year : Nat
  month : Nat
  day : Nat
  hour : Nat
  minute : Nat
deriving DecidableEq, Repr

/-- Python `datetime.date()`: the calendar day, discarding time-of-day. -/
def DateTime.date (d : DateTime) : Nat × Nat × Nat :=
  (d.year, d.month, d.day)

/-- The `Exam` dataclass of the source. -/
structure Exam where
  course_id : String
  location : Int
  date : DateTime
  num_students : Int
deriving DecidableEq, Repr

/-- The regex check `re.match(r'^[A-Z]{3}-\d{3}-\d{3}$', s)` (ASCII reading). -/
def validCourseId (s : String) : Bool :=
  match s.data with
  | [a, b, c, d1, x, y, z, d2, u, v, w] =>
    a.isUpper && b.isUpper && c.isUpper && (d1 == '-') &&
    x.isDigit && y.isDigit && z.isDigit && (d2 == '-') &&
    u.isDigit && v.isDigit && w.isDigit
  | _ => false

/-- The distinct `ValueError`s raised by the source, one constructor per
`raise` site (plus `invalidDate`, whose guard `isinstance(exam.date, datetime)`
can never fail in the typed embedding). -/
inductive BookError where
  | invalidCourseId (course_id : String)
  | invalidLocation (location : Int)
  | invalidDate
  | invalidStudentCount (n : Int)
  | roomAlreadyBooked (location : Int) (date : DateTime)
  | invalidRange
deriving DecidableEq, Repr

/-- `ExamBookingSystem.validate_exam_data`: fail-fast field checks in source
order (course id, location, date, student count).  The date check is the
`isinstance` test, true by typing. -/
def validate_exam_data (e : Exam) : Except BookError Bool :=
  if ¬ validCourseId e.course_id then .error (.invalidCourseId e.course_id)
  else if e.location ≤ 0 then .error (.invalidLocation e.location)
  else if e.num_students ≤ 0 then .error (.invalidStudentCount e.num_students)
  else .ok true

/-- The inner `Node` class: a binary tree whose nodes own one `Exam` each
(the node's `location` field is a copy of `exam.location`, so it is not
stored separately). -/
inductive BookingTree where
  | leaf : BookingTree
  | node : BookingTree → Exam → BookingTree → BookingTree
deriving DecidableEq, Repr

/-- The `ExamBookingSystem` state: root pointer and size counter. -/
structure ExamBookingSystem where
  root : BookingTree
  size : Nat
deriving DecidableEq, Repr

/-- `ExamBookingSystem.__init__`: empty tree, size 0. -/
def ExamBookingSystem.empty : ExamBookingSystem := ⟨.leaf, 0⟩

/-- `find_exam_by_location_and_date`: BST point search on `location`; on a key
hit the record is returned only when its stored calendar day equals the queried
one, else `none`. -/
def find_exam_by_location_and_date : BookingTree → Int → DateTime → Option Exam
  | .leaf, _, _ => none
  | .node l e r, location, date =>
    if location = e.location then
      if e.date.date = date.date then some e else none
    else if location < e.location then
      find_exam_by_location_and_date l location date
    else
      find_exam_by_location_and_date r location date

/-- `_insert_recursive`: descend comparing locations; an equal key returns
`False` with no mutation; an absent child slot (`node.left is None` /
`node.right is None`, modelled as equality with `leaf`) receives a fresh leaf
node and returns `True`.  The Python method is only ever called on a non-`None`
node; the `leaf` case is the unreachable default.  The returned tree is the
mutated subtree, and the flag reports whether `self.size` was incremented. -/
def insertRec : BookingTree → Exam → Bool × BookingTree
  | .leaf, _ => (false, .leaf)
  | .node l n r, e =>
    if e.location = n.location then (false, .node l n r)
    else if e.location < n.location then
      if l = .leaf then (true, .node (.node .leaf e .leaf) n r)
      else
        let res := insertRec l e
        (res.1, .node res.2 n r)
    else
      if r = .leaf then (true, .node l n (.node .leaf e .leaf))
      else
        let res := insertRec r e
        (res.1, .node l n res.2)

/-- `book_exam`: validate, check the day-granularity conflict (an existing
record at this location for the same calendar day raises), then insert: an
empty tree gets the record as root, otherwise `_insert_recursive` runs and its
boolean is returned. -/
def book_exam (s : ExamBookingSystem) (e : Exam) :
    Except BookError (Bool × ExamBookingSystem) :=
  match validate_exam_data e with
  | .error err => .error err
  | .ok _ =>
    match find_exam_by_location_and_date s.root e.location e.date with
    | some _ => .error (.roomAlreadyBooked e.location e.date)
    | none =>
      if s.root = .leaf then .ok (true, ⟨.node .leaf e .leaf, s.size + 1⟩)
      else
        let res := insertRec s.root e
        .ok (res.1, ⟨res.2, if res.1 then s.size + 1 else s.size⟩)

/-- `_find_in_range_recursive`: visit the node (collect it when its location
lies in `[start_loc, end_loc]`), recurse left only when `start_loc < location`,
recurse right only when `end_loc > location`.  The Python accumulator order
(node first, then left results, then right results) is kept. -/
def findInRangeRec : BookingTree → Int → Int → List Exam
  | .leaf, _, _ => []
  | .node l e r, start_loc, end_loc =>
    (if start_loc ≤ e.location ∧ e.location ≤ end_loc then [e] else []) ++
    (if start_loc < e.location then findInRangeRec l start_loc end_loc else []) ++
    (if end_loc > e.location then findInRangeRec r start_loc end_loc else [])

instance examLocLeDec : DecidableRel (fun a b : Exam => a.location ≤ b.location) :=
  fun a b => Int.decLe a.location b.location

instance examLocLeTotal : IsTotal Exam (fun a b => a.location ≤ b.location) :=
  ⟨fun a b => le_total a.location b.location⟩

instance examLocLeTrans : IsTrans Exam (fun a b => a.location ≤ b.location) :=
  ⟨fun a b c hab hbc => le_trans hab hbc⟩

instance examLocLtAntisymm : IsAntisymm Exam (fun a b => a.location < b.location) :=
  ⟨fun a b h1 h2 => absurd (lt_trans h1 h2) (lt_irrefl a.location)⟩

/-- Python's `sorted(result, key=lambda x: x.location)`. -/
def sortByLocation (l : List Exam) : List Exam :=
  l.insertionSort (fun a b => a.location ≤ b.location)

/-- `find_exams_in_range`: reject `start_loc > end_loc`, else run the pruned
traversal from the root and sort the accumulator by location.  (The
`isinstance(..., int)` guard is discharged by typing.) -/
def find_exams_in_range (s : ExamBookingSystem) (start_loc end_loc : Int) :
    Except BookError (List Exam) :=
  if start_loc > end_loc then .error .invalidRange
  else .ok (sortByLocation (findInRangeRec s.root start_loc end_loc))

/-- In-order traversal: the list of all booked records, in key order when the
tree is a BST. -/
def inorder : BookingTree → List Exam
  | .leaf => []
  | .node l e r => inorder l ++ e :: inorder r

/-- Every record in the tree satisfies `p` on its location. -/
def BookingTree.forallKeys (p : Int → Bool) : BookingTree → Bool
  | .leaf => true
  | .node l e r => p e.location && BookingTree.forallKeys p l && BookingTree.forallKeys p r

/-- The BST property: left keys strictly below, right keys strictly above, at
every node. -/
def BookingTree.isBST : BookingTree → Bool
  | .leaf => true
  | .node l e r =>
    l.forallKeys (fun k => decide (k < e.location)) &&
    r.forallKeys (fun k => decide (e.location < k)) &&
    l.isBST && r.isBST

/-- One call of the driver loop in `run_tests`: a raising `book_exam` leaves
the system as it was (the exception fires before any mutation), a returning
call yields the updated system. -/
def applyBook (s : ExamBookingSystem) (e : Exam) : ExamBookingSystem :=
  match book_exam s e with
  | .ok (_, s') => s'
  | .error _ => s

/-- Run a sequence of booking attempts against the empty system. -/
def bookList (es : List Exam) : ExamBookingSystem :=
  es.foldl applyBook ExamBookingSystem.empty

/-- A booking attempt counts as successful exactly when `book_exam` returns
`True`. -/
def isSuccess (s : ExamBookingSystem) (e : Exam) : Bool :=
  match book_exam s e with
  | .ok (true, _) => true
  | _ => false

/-- Number of successful `book_exam` calls in a sequence run from state `s`. -/
def successCount : ExamBookingSystem → List Exam → Nat
  | _, [] => 0
  | s, e :: es => (if isSuccess s e then 1 else 0) + successCount (applyBook s e) es

/-- The linear-scan reference semantics of a range query, following the spec's
words: walk the list of all booked records (the in-order traversal) and keep
those whose location lies in `[start_loc, end_loc]`. -/
def linearScanInRange (s : ExamBookingSystem) (start_loc end_loc : Int) : List Exam :=
  (inorder s.root).filter (fun e => decide (start_loc ≤ e.location) && decide (e.location ≤ end_loc))

/-- Scenario data (Test Case 1 of `run_tests`, with the five bookings placed on
five distinct days as in the spec's Scenario 1). -/
def examA : Exam := ⟨"CSE-101-456", 50, ⟨2024, 12, 1, 9, 0⟩, 30⟩

def examB : Exam := ⟨"MAT-202-789", 45, ⟨2024, 12, 2, 14, 0⟩, 25⟩

def examC : Exam := ⟨"PHY-303-123", 60, ⟨2024, 12, 3, 9, 0⟩, 35⟩

def examD : Exam := ⟨"CHE-404-234", 42, ⟨2024, 12, 4, 14, 0⟩, 28⟩

def examE : Exam := ⟨"BIO-505-345", 55, ⟨2024, 12, 5, 9, 0⟩, 32⟩

/-- Scenario 3: a second booking for room 50 on the same calendar day
(2024-12-01) with a different course id. -/
def examDup50SameDay : Exam := ⟨"ENG-606-567", 50, ⟨2024, 12, 1, 10, 0⟩, 40⟩

/-- Scenario 4: a second booking for room 50 on a different calendar day
(2024-12-05). -/
def examDup50OtherDay : Exam := ⟨"ENG-606-567", 50, ⟨2024, 12, 5, 10, 0⟩, 40⟩

/-- A booking for room 45 (a non-root node) on a free day. -/
def examDup45OtherDay : Exam := ⟨"HIS-707-890", 45, ⟨2024, 12, 6, 9, 0⟩, 20⟩

/-- Scenario 2 / Test Case 3: invalid course id pattern. -/
def badCourseExam : Exam := ⟨"CSE-1-1", 70, ⟨2024, 12, 4, 9, 0⟩, 30⟩

/-- Test Case 3: invalid (negative) student count. -/
def badStudentsExam : Exam := ⟨"ENG-606-567", 75, ⟨2024, 12, 4, 9, 0⟩, -5⟩

theorem inorder_node (l r : BookingTree) (n : Exam) :
    inorder (.node l n r) = inorder l ++ n :: inorder r := rfl

theorem forallKeys_iff (p : Int → Bool) (t : BookingTree) :
    t.forallKeys p = true ↔ ∀ e ∈ inorder t, p e.location = true := by
  induction t with
  | leaf => simp [BookingTree.forallKeys, inorder]
  | node l n r ihl ihr =>
    simp only [BookingTree.forallKeys, Bool.and_eq_true, inorder, List.mem_append,
      List.mem_cons, ihl, ihr]
    constructor
    · rintro ⟨⟨hn, hl⟩, hr⟩ e (he | rfl | he)
      · exact hl e he
      · exact hn
      · exact hr e he
    · intro h
      exact ⟨⟨h n (Or.inr (Or.inl rfl)), fun e he => h e (Or.inl he)⟩,
        fun e he => h e (Or.inr (Or.inr he))⟩

theorem isBST_node (l r : BookingTree) (n : Exam) :
    (BookingTree.node l n r).isBST = true ↔
      l.forallKeys (fun k => decide (k < n.location)) = true ∧
      r.forallKeys (fun k => decide (n.location < k)) = true ∧
      l.isBST = true ∧ r.isBST = true := by
  simp [BookingTree.isBST, Bool.and_eq_true, and_assoc]

theorem sorted_locations (t : BookingTree) (h : t.isBST = true) :
    ((inorder t).map (fun e => e.location)).Sorted (· < ·) := by
  induction t with
  | leaf => simp [inorder]
  | node l n r ihl ihr =>
    rw [isBST_node] at h
    obtain ⟨hfl, hfr, hbl, hbr⟩ := h
    rw [forallKeys_iff] at hfl hfr
    simp only [decide_eq_true_eq] at hfl hfr
    rw [inorder_node, List.map_append, List.map_cons]
    rw [List.Sorted, List.pairwise_append]
    refine ⟨ihl hbl, ?_, ?_⟩
    · rw [List.pairwise_cons]
      refine ⟨?_, ihr hbr⟩
      intro b hb
      obtain ⟨e, he, rfl⟩ := List.mem_map.mp hb
      exact hfr e he
    · intro a ha b hb
      obtain ⟨ea, hea, rfl⟩ := List.mem_map.mp ha
      rcases List.mem_cons.mp hb with rfl | hb
      · exact hfl ea hea
      · obtain ⟨eb, heb, rfl⟩ := List.mem_map.mp hb
        exact lt_trans (hfl ea hea) (hfr eb heb)

theorem insertRec_false_eq (t : BookingTree) (e : Exam) :
    (insertRec t e).1 = false → (insertRec t e).2 = t := by
  induction t with
  | leaf => intro _; rfl
  | node l n r ihl ihr =>
    intro h
    by_cases h1 : e.location = n.location
    · simp [insertRec, h1]
    · by_cases h2 : e.location < n.location
      · by_cases hl : l = BookingTree.leaf
        · simp [insertRec, h1, h2, hl] at h
        · simp only [insertRec, if_neg h1, if_pos h2, if_neg hl] at h ⊢
          rw [ihl h]
      · by_cases hr : r = BookingTree.leaf
        · simp [insertRec, h1, h2, hr] at h
        · simp only [insertRec, if_neg h1, if_neg h2, if_neg hr] at h ⊢
          rw [ihr h]

theorem insertRec_true_length (t : BookingTree) (e : Exam) :
    (insertRec t e).1 = true →
    (inorder (insertRec t e).2).length = (inorder t).length + 1 := by
  induction t with
  | leaf => intro h; simp [insertRec] at h
  | node l n r ihl ihr =>
    intro h
    by_cases h1 : e.location = n.location
    · simp [insertRec, h1] at h
    · by_cases h2 : e.location < n.location
      · by_cases hl : l = BookingTree.leaf
        · subst hl
          simp [insertRec, if_neg h1, if_pos h2, inorder]
        · simp only [insertRec, if_neg h1, if_pos h2, if_neg hl] at h ⊢
          simp only [inorder_node, List.length_append, List.length_cons]
          have := ihl h
          omega
      · by_cases hr : r = BookingTree.leaf
        · subst hr
          simp [insertRec, if_neg h1, if_neg h2, inorder, List.length_append]
        · simp only [insertRec, if_neg h1, if_neg h2, if_neg hr] at h ⊢
          simp only [inorder_node, List.length_append, List.length_cons]
          have := ihr h
          omega

theorem insertRec_forallKeys (t : BookingTree) (e : Exam) (p : Int → Bool)
    (hp : p e.location = true) :
    t.forallKeys p = true → (insertRec t e).2.forallKeys p = true := by
  induction t with
  | leaf => intro h; exact h
  | node l n r ihl ihr =>
    intro h
    simp only [BookingTree.forallKeys, Bool.and_eq_true] at h
    obtain ⟨⟨hn, hl0⟩, hr0⟩ := h
    by_cases h1 : e.location = n.location
    · simp only [insertRec, if_pos h1]
      simp only [BookingTree.forallKeys, Bool.and_eq_true]
      exact ⟨⟨hn, hl0⟩, hr0⟩
    · by_cases h2 : e.location < n.location
      · by_cases hl : l = BookingTree.leaf
        · simp [insertRec, if_neg h1, if_pos h2, hl, BookingTree.forallKeys, hn, hr0, hp]
        · simp only [insertRec, if_neg h1, if_pos h2, if_neg hl]
          simp only [BookingTree.forallKeys, Bool.and_eq_true]
          exact ⟨⟨hn, ihl hl0⟩, hr0⟩
      · by_cases hr : r = BookingTree.leaf
        · simp [insertRec, if_neg h1, if_neg h2, hr, BookingTree.forallKeys, hn, hl0, hp]
        · simp only [insertRec, if_neg h1, if_neg h2, if_neg hr]
          simp only [BookingTree.forallKeys, Bool.and_eq_true]
          exact ⟨⟨hn, hl0⟩, ihr hr0⟩

theorem insertRec_isBST (t : BookingTree) (e : Exam) :
    t.isBST = true → (insertRec t e).2.isBST = true := by
  induction t with
  | leaf => intro h; exact h
  | node l n r ihl ihr =>
    intro h
    rw [isBST_node] at h
    obtain ⟨hfl, hfr, hbl, hbr⟩ := h
    by_cases h1 : e.location = n.location
    · simp only [insertRec, if_pos h1]
      rw [isBST_node]
      exact ⟨hfl, hfr, hbl, hbr⟩
    · by_cases h2 : e.location < n.location
      · by_cases hl : l = BookingTree.leaf
        · simp only [insertRec, if_neg h1, if_pos h2, if_pos hl]
          rw [isBST_node]
          refine ⟨?_, hfr, ?_, hbr⟩
          · simp [BookingTree.forallKeys, h2]
          · simp [BookingTree.isBST, BookingTree.forallKeys]
        · simp only [insertRec, if_neg h1, if_pos h2, if_neg hl]
          rw [isBST_node]
          refine ⟨?_, hfr, ihl hbl, hbr⟩
          exact insertRec_forallKeys _ _ _ (by simp [h2]) hfl
      · by_cases hr : r = BookingTree.leaf
        · simp only [insertRec, if_neg h1, if_neg h2, if_pos hr]
          rw [isBST_node]
          have h3 : n.location < e.location :=
            lt_of_le_of_ne (not_lt.mp h2) (fun hx => h1 hx.symm)
          refine ⟨hfl, ?_, hbl, ?_⟩
          · simp [BookingTree.forallKeys, h3]
          · simp [BookingTree.isBST, BookingTree.forallKeys]
        · simp only [insertRec, if_neg h1, if_neg h2, if_neg hr]
          rw [isBST_node]
          have h3 : n.location < e.location :=
            lt_of_le_of_ne (not_lt.mp h2) (fun hx => h1 hx.symm)
          refine ⟨hfl, ?_, hbl, ihr hbr⟩
          exact insertRec_forallKeys _ _ _ (by simp [h3]) hfr

theorem insertRec_mem_false (t : BookingTree) (e : Exam)
    (hb : t.isBST = true) (ex : Exam) (hmem : ex ∈ inorder t)
    (hloc : ex.location = e.location) : (insertRec t e).1 = false := by
  induction t with
  | leaf => simp [inorder] at hmem
  | node l n r ihl ihr =>
    rw [isBST_node] at hb
    obtain ⟨hfl, hfr, hbl, hbr⟩ := hb
    rw [forallKeys_iff] at hfl hfr
    simp only [decide_eq_true_eq] at hfl hfr
    rw [inorder_node] at hmem
    by_cases h1 : e.location = n.location
    · simp [insertRec, h1]
    · by_cases h2 : e.location < n.location
      · have hml : ex ∈ inorder l := by
          rcases List.mem_append.mp hmem with h | h
          · exact h
          · rcases List.mem_cons.mp h with rfl | h
            · exact absurd hloc.symm h1
            · exact absurd h2 (not_lt.mpr (le_of_lt (hloc ▸ hfr ex h)))
        by_cases hl : l = BookingTree.leaf
        · rw [hl] at hml; simp [inorder] at hml
        · simp only [insertRec, if_neg h1, if_pos h2, if_neg hl]
          exact ihl hbl hml
      · have h3 : n.location < e.location :=
          lt_of_le_of_ne (not_lt.mp h2) (fun hx => h1 hx.symm)
        have hmr : ex ∈ inorder r := by
          rcases List.mem_append.mp hmem with h | h
          · exact absurd (hloc ▸ hfl ex h) (not_lt.mpr (le_of_lt h3))
          · rcases List.mem_cons.mp h with rfl | h
            · exact absurd hloc.symm h1
            · exact h
        by_cases hr : r = BookingTree.leaf
        · rw [hr] at hmr; simp [inorder] at hmr
        · simp only [insertRec, if_neg h1, if_neg h2, if_neg hr]
          exact ihr hbr hmr

theorem find_eq_some_iff (t : BookingTree) (loc : Int) (d : DateTime) (ex : Exam) :
    t.isBST = true →
    (find_exam_by_location_and_date t loc d = some ex ↔
      ex ∈ inorder t ∧ ex.location = loc ∧ ex.date.date = d.date) := by
  induction t with
  | leaf => intro _; simp [find_exam_by_location_and_date, inorder]
  | node l n r ihl ihr =>
    intro hb
    rw [isBST_node] at hb
    obtain ⟨hfl, hfr, hbl, hbr⟩ := hb
    rw [forallKeys_iff] at hfl hfr
    simp only [decide_eq_true_eq] at hfl hfr
    by_cases h1 : loc = n.location
    · by_cases h2 : n.date.date = d.date
      · simp only [find_exam_by_location_and_date, if_pos h1, if_pos h2,
          Option.some_inj, inorder_node, List.mem_append, List.mem_cons]
        constructor
        · rintro rfl
          exact ⟨Or.inr (Or.inl rfl), h1.symm, h2⟩
        · rintro ⟨hm, hlo, _⟩
          rcases hm with hm | rfl | hm
          · have := hfl ex hm; omega
          · rfl
          · have := hfr ex hm; omega
      · simp only [find_exam_by_location_and_date, if_pos h1, if_neg h2,
          inorder_node, List.mem_append, List.mem_cons]
        constructor
        · intro h; exact absurd h (by simp)
        · rintro ⟨hm, hlo, hd⟩
          rcases hm with hm | rfl | hm
          · have := hfl ex hm; omega
          · exact absurd hd h2
          · have := hfr ex hm; omega
    · by_cases h2 : loc < n.location
      · rw [find_exam_by_location_and_date]
        rw [if_neg h1, if_pos h2, ihl hbl]
        simp only [inorder_node, List.mem_append, List.mem_cons]
        constructor
        · rintro ⟨hm, hlo, hd⟩
          exact ⟨Or.inl hm, hlo, hd⟩
        · rintro ⟨hm, hlo, hd⟩
          rcases hm with hm | rfl | hm
          · exact ⟨hm, hlo, hd⟩
          · exact absurd hlo.symm h1
          · exact absurd (hlo ▸ hfr ex hm) (not_lt.mpr (le_of_lt h2))
      · have h3 : n.location < loc :=
          lt_of_le_of_ne (not_lt.mp h2) (fun hx => h1 hx.symm)
        rw [find_exam_by_location_and_date]
        rw [if_neg h1, if_neg h2, ihr hbr]
        simp only [inorder_node, List.mem_append, List.mem_cons]
        constructor
        · rintro ⟨hm, hlo, hd⟩
          exact ⟨Or.inr (Or.inr hm), hlo, hd⟩
        · rintro ⟨hm, hlo, hd⟩
          rcases hm with hm | rfl | hm
          · exact absurd (hlo ▸ hfl ex hm) (not_lt.mpr (le_of_lt h3))
          · exact absurd hlo.symm h1
          · exact ⟨hm, hlo, hd⟩

theorem find_eq_none_iff (t : BookingTree) (loc : Int) (d : DateTime)
    (hb : t.isBST = true) :
    (find_exam_by_location_and_date t loc d = none ↔
      ∀ ex ∈ inorder t, ex.location = loc → ex.date.date ≠ d.date) := by
  constructor
  · intro h ex hm hlo hd
    have := (find_eq_some_iff t loc d ex hb).mpr ⟨hm, hlo, hd⟩
    rw [h] at this
    exact Option.noConfusion this
  · intro h
    cases hf : find_exam_by_location_and_date t loc d with
    | none => rfl
    | some ex =>
      obtain ⟨hm, hlo, hd⟩ := (find_eq_some_iff t loc d ex hb).mp hf
      exact absurd hd (h ex hm hlo)

theorem validate_ok_true (e : Exam) (b : Bool) :
    validate_exam_data e = .ok b → b = true := by
  unfold validate_exam_data
  split
  · intro h; exact Option.noConfusion (congrArg (fun x => x.toOption) h)
  · split
    · intro h; exact Option.noConfusion (congrArg (fun x => x.toOption) h)
    · split
      · intro h; exact Option.noConfusion (congrArg (fun x => x.toOption) h)
      · intro h; cases h; rfl

/-- Exhaustive case analysis of `book_exam`: validation error propagated;
same-day conflict raises `roomAlreadyBooked`; empty tree takes the record as
root; otherwise `_insert_recursive` decides. -/
theorem book_exam_cases (s : ExamBookingSystem) (e : Exam) :
    (∃ err, validate_exam_data e = .error err ∧ book_exam s e = .error err) ∨
    (validate_exam_data e = .ok true ∧
      (∃ ex, find_exam_by_location_and_date s.root e.location e.date = some ex) ∧
      book_exam s e = .error (.roomAlreadyBooked e.location e.date)) ∨
    (validate_exam_data e = .ok true ∧
      find_exam_by_location_and_date s.root e.location e.date = none ∧
      s.root = .leaf ∧
      book_exam s e = .ok (true, ⟨.node .leaf e .leaf, s.size + 1⟩)) ∨
    (validate_exam_data e = .ok true ∧
      find_exam_by_location_and_date s.root e.location e.date = none ∧
      s.root ≠ .leaf ∧
      book_exam s e = .ok ((insertRec s.root e).1,
        ⟨(insertRec s.root e).2,
         if (insertRec s.root e).1 then s.size + 1 else s.size⟩)) := by
  cases hv : validate_exam_data e with
  | error err =>
    left
    exact ⟨err, rfl, by simp only [book_exam, hv]⟩
  | ok b =>
    have hb := validate_ok_true e b hv
    subst hb
    cases hf : find_exam_by_location_and_date s.root e.location e.date with
    | some ex =>
      right; left
      exact ⟨rfl, ⟨ex, rfl⟩, by simp only [book_exam, hv, hf]⟩
    | none =>
      by_cases hr : s.root = BookingTree.leaf
      · right; right; left
        exact ⟨rfl, rfl, hr, by simp only [book_exam, hv, hf, if_pos hr]⟩
      · right; right; right
        exact ⟨rfl, rfl, hr, by simp only [book_exam, hv, hf, if_neg hr]⟩

theorem book_exam_ok_isBST (s : ExamBookingSystem) (e : Exam) (b : Bool)
    (s' : ExamBookingSystem) (hb : s.root.isBST = true)
    (h : book_exam s e = .ok (b, s')) : s'.root.isBST = true := by
  rcases book_exam_cases s e with ⟨err, _, he⟩ | ⟨_, _, he⟩ |
    ⟨_, _, hr, he⟩ | ⟨_, _, hr, he⟩
  · rw [he] at h; exact Except.noConfusion h
  · rw [he] at h; exact Except.noConfusion h
  · have := he.symm.trans h
    simp only [Except.ok.injEq, Prod.mk.injEq] at this
    obtain ⟨-, hs'⟩ := this
    rw [← hs']
    simp [BookingTree.isBST, BookingTree.forallKeys]
  · have := he.symm.trans h
    simp only [Except.ok.injEq, Prod.mk.injEq] at this
    obtain ⟨-, hs'⟩ := this
    rw [← hs']
    exact insertRec_isBST s.root e hb

theorem book_exam_ok_false_eq (s : ExamBookingSystem) (e : Exam)
    (s' : ExamBookingSystem) (h : book_exam s e = .ok (false, s')) : s' = s := by
  rcases book_exam_cases s e with ⟨err, _, he⟩ | ⟨_, _, he⟩ |
    ⟨_, _, hr, he⟩ | ⟨_, _, hr, he⟩
  · rw [he] at h; exact Except.noConfusion h
  · rw [he] at h; exact Except.noConfusion h
  · have := he.symm.trans h
    simp only [Except.ok.injEq, Prod.mk.injEq] at this
    exact absurd this.1 (by simp)
  · have := he.symm.trans h
    simp only [Except.ok.injEq, Prod.mk.injEq] at this
    obtain ⟨hb1, hs'⟩ := this
    have ht := insertRec_false_eq s.root e hb1
    rw [← hs', ht, hb1]
    rfl

theorem book_exam_ok_true_size (s : ExamBookingSystem) (e : Exam)
    (s' : ExamBookingSystem) (h : book_exam s e = .ok (true, s')) :
    s'.size = s.size + 1 ∧
    (inorder s'.root).length = (inorder s.root).length + 1 := by
  rcases book_exam_cases s e with ⟨err, _, he⟩ | ⟨_, _, he⟩ |
    ⟨_, _, hr, he⟩ | ⟨_, _, hr, he⟩
  · rw [he] at h; exact Except.noConfusion h
  · rw [he] at h; exact Except.noConfusion h
  · have := he.symm.trans h
    simp only [Except.ok.injEq, Prod.mk.injEq] at this
    obtain ⟨-, hs'⟩ := this
    rw [← hs', hr]
    simp [inorder]
  · have := he.symm.trans h
    simp only [Except.ok.injEq, Prod.mk.injEq] at this
    obtain ⟨hb1, hs'⟩ := this
    rw [← hs']
    constructor
    · simp [hb1]
    · exact insertRec_true_length s.root e hb1

theorem applyBook_isBST (s : ExamBookingSystem) (e : Exam)
    (hb : s.root.isBST = true) : (applyBook s e).root.isBST = true := by
  unfold applyBook
  cases h : book_exam s e with
  | error err => exact hb
  | ok p =>
    obtain ⟨b, s'⟩ := p
    exact book_exam_ok_isBST s e b s' hb h

theorem foldl_applyBook_isBST (es : List Exam) :
    ∀ s : ExamBookingSystem, s.root.isBST = true →
    (es.foldl applyBook s).root.isBST = true := by
  induction es with
  | nil => intro s hs; exact hs
  | cons e es ih =>
    intro s hs
    exact ih (applyBook s e) (applyBook_isBST s e hs)

theorem bookList_isBST (es : List Exam) : (bookList es).root.isBST = true :=
  foldl_applyBook_isBST es ExamBookingSystem.empty rfl

theorem applyBook_size_step (s : ExamBookingSystem) (e : Exam) :
    (applyBook s e).size = s.size + (if isSuccess s e then 1 else 0) := by
  unfold applyBook isSuccess
  cases h : book_exam s e with
  | error err => simp
  | ok p =>
    obtain ⟨b, s'⟩ := p
    cases b with
    | true => simp [(book_exam_ok_true_size s e s' h).1]
    | false => simp [book_exam_ok_false_eq s e s' h]

theorem applyBook_length_step (s : ExamBookingSystem) (e : Exam) :
    (inorder (applyBook s e).root).length =
      (inorder s.root).length + (if isSuccess s e then 1 else 0) := by
  unfold applyBook isSuccess
  cases h : book_exam s e with
  | error err => simp
  | ok p =>
    obtain ⟨b, s'⟩ := p
    cases b with
    | true => simp [(book_exam_ok_true_size s e s' h).2]
    | false => simp [book_exam_ok_false_eq s e s' h]

theorem foldl_applyBook_size (es : List Exam) :
    ∀ s : ExamBookingSystem,
    (es.foldl applyBook s).size = s.size + successCount s es := by
  induction es with
  | nil => intro s; simp [successCount]
  | cons e es ih =>
    intro s
    rw [List.foldl_cons, ih (applyBook s e)]
    show (applyBook s e).size + successCount (applyBook s e) es = _
    rw [applyBook_size_step]
    simp only [successCount]
    omega

theorem foldl_applyBook_length (es : List Exam) :
    ∀ s : ExamBookingSystem,
    (inorder (es.foldl applyBook s).root).length =
      (inorder s.root).length + successCount s es := by
  induction es with
  | nil => intro s; simp [successCount]
  | cons e es ih =>
    intro s
    rw [List.foldl_cons, ih (applyBook s e)]
    rw [applyBook_length_step]
    simp only [successCount]
    omega

theorem findInRangeRec_perm (t : BookingTree) (lo hi : Int) :
    t.isBST = true →
    (findInRangeRec t lo hi).Perm
      ((inorder t).filter
        (fun e => decide (lo ≤ e.location) && decide (e.location ≤ hi))) := by
  induction t with
  | leaf => intro _; simp [findInRangeRec, inorder]
  | node l n r ihl ihr =>
    intro hb
    rw [isBST_node] at hb
    obtain ⟨hfl, hfr, hbl, hbr⟩ := hb
    rw [forallKeys_iff] at hfl hfr
    simp only [decide_eq_true_eq] at hfl hfr
    have hA : (if lo < n.location then findInRangeRec l lo hi else []).Perm
        ((inorder l).filter
          (fun e => decide (lo ≤ e.location) && decide (e.location ≤ hi))) := by
      by_cases hcl : lo < n.location
      · simpa [hcl] using ihl hbl
      · rw [if_neg hcl]
        have : (inorder l).filter
            (fun e => decide (lo ≤ e.location) && decide (e.location ≤ hi)) = [] := by
          rw [List.filter_eq_nil_iff]
          intro e he
          have := hfl e he
          simp only [Bool.and_eq_true, decide_eq_true_eq, not_and]
          intro hle
          omega
        rw [this]
    have hB : (if hi > n.location then findInRangeRec r lo hi else []).Perm
        ((inorder r).filter
          (fun e => decide (lo ≤ e.location) && decide (e.location ≤ hi))) := by
      by_cases hcr : hi > n.location
      · simpa [hcr] using ihr hbr
      · rw [if_neg hcr]
        have : (inorder r).filter
            (fun e => decide (lo ≤ e.location) && decide (e.location ≤ hi)) = [] := by
          rw [List.filter_eq_nil_iff]
          intro e he
          have := hfr e he
          simp only [Bool.and_eq_true, decide_eq_true_eq, not_and]
          intro hle
          omega
        rw [this]
    have hM : ((inorder (BookingTree.node l n r)).filter
        (fun e => decide (lo ≤ e.location) && decide (e.location ≤ hi))) =
        (inorder l).filter
          (fun e => decide (lo ≤ e.location) && decide (e.location ≤ hi)) ++
        ((if lo ≤ n.location ∧ n.location ≤ hi then [n] else []) ++
          (inorder r).filter
            (fun e => decide (lo ≤ e.location) && decide (e.location ≤ hi))) := by
      rw [inorder_node, List.filter_append, List.filter_cons]
      by_cases hn1 : lo ≤ n.location <;> by_cases hn2 : n.location ≤ hi <;>
        simp [hn1, hn2]
    rw [hM]
    refine List.Perm.trans ?_ (List.perm_append_comm_assoc _ _ _)
    rw [findInRangeRec, List.append_assoc]
    exact List.Perm.append (List.Perm.refl _) (List.Perm.append hA hB)

theorem inorder_pairwise_lt (t : BookingTree) (hb : t.isBST = true) :
    (inorder t).Pairwise (fun a b : Exam => a.location < b.location) :=
  List.pairwise_map.mp (sorted_locations t hb)

theorem sortByLocation_eq_of_sorted_target (l target : List Exam)
    (hperm0 : l.Perm target)
    (htarget : target.Pairwise (fun a b : Exam => a.location < b.location)) :
    sortByLocation l = target := by
  have hperm : (sortByLocation l).Perm target :=
    (List.perm_insertionSort _ _).trans hperm0
  have hle : (sortByLocation l).Pairwise
      (fun a b : Exam => a.location ≤ b.location) :=
    List.sorted_insertionSort _ _
  have hnd : (target.map (fun e => e.location)).Nodup := by
    have hs : (target.map (fun e => e.location)).Sorted (· < ·) := by
      rw [List.Sorted]
      exact List.pairwise_map.mpr htarget
    exact hs.nodup
  have hnd' : ((sortByLocation l).map (fun e => e.location)).Nodup :=
    ((hperm.map (fun e => e.location)).symm).nodup hnd
  have hne : (sortByLocation l).Pairwise
      (fun a b : Exam => a.location ≠ b.location) :=
    List.pairwise_map.mp hnd'
  have hlt : (sortByLocation l).Pairwise
      (fun a b : Exam => a.location < b.location) :=
    (hle.and hne).imp (fun h => lt_of_le_of_ne h.1 h.2)
  exact List.eq_of_perm_of_sorted hperm hlt htarget

theorem find_range_eq_scan (s : ExamBookingSystem) (lo hi : Int)
    (hb : s.root.isBST = true) (h : lo ≤ hi) :
    find_exams_in_range s lo hi = .ok (linearScanInRange s lo hi) := by
  unfold find_exams_in_range
  rw [if_neg (not_lt.mpr h)]
  congr 1
  exact sortByLocation_eq_of_sorted_target _ _
    (findInRangeRec_perm s.root lo hi hb)
    (List.Pairwise.filter _ (inorder_pairwise_lt s.root hb))

/-- C2: for every sequence of `book_exam` calls starting from the empty index,
the resulting tree satisfies the BST property (every key in a node's left
subtree is below its location, every key in its right subtree above), the
in-order traversal lists room numbers in strictly ascending order, and no two
nodes share a location. -/
theorem bst_inorder_strictly_ascending (es : List Exam) :
    (bookList es).root.isBST = true ∧
    ((inorder (bookList es).root).map (fun e => e.location)).Sorted (· < ·) ∧
    ((inorder (bookList es).root).map (fun e => e.location)).Nodup := by
  have hb := bookList_isBST es
  have hs := sorted_locations (bookList es).root hb
  exact ⟨hb, hs, hs.nodup⟩

/-- C5: after any sequence of `book_exam` calls starting from the empty index,
the `size` field equals the number of calls that returned `True` (failed calls
— validation errors, same-day conflicts, and duplicate-location rejections —
never increment it), and also equals the number of records actually stored in
the tree. -/
theorem size_equals_successful_bookings (es : List Exam) :
    (bookList es).size = successCount ExamBookingSystem.empty es ∧
    (bookList es).size = (inorder (bookList es).root).length := by
  have h1 := foldl_applyBook_size es ExamBookingSystem.empty
  have h2 := foldl_applyBook_length es ExamBookingSystem.empty
  have he1 : ExamBookingSystem.empty.size = 0 := rfl
  have he2 : (inorder ExamBookingSystem.empty.root).length = 0 := rfl
  constructor
  · rw [bookList] at *
    omega
  · rw [bookList] at *
    omega

/-- C7: on every index reachable by a sequence of booking attempts,
`find_exam_by_location_and_date` returns a record exactly when a node with that
exact location exists whose stored calendar day (ignoring time-of-day) equals
the queried one; if the location is absent, or present with a different
calendar day, it returns `none`. -/
theorem find_by_location_and_date_spec (es : List Exam) (loc : Int) (d : DateTime) :
    (∀ ex, find_exam_by_location_and_date (bookList es).root loc d = some ex ↔
      ex ∈ inorder (bookList es).root ∧ ex.location = loc ∧
        ex.date.date = d.date) ∧
    (find_exam_by_location_and_date (bookList es).root loc d = none ↔
      ∀ ex ∈ inorder (bookList es).root, ex.location = loc →
        ex.date.date ≠ d.date) := by
  have hb := bookList_isBST es
  exact ⟨fun ex => find_eq_some_iff (bookList es).root loc d ex hb,
    find_eq_none_iff (bookList es).root loc d hb⟩

/-- C8: a range query with `start_loc > end_loc` fails with the invalid-range
error on every index, before any traversal (the embedding returns the error
without touching the tree, and the caller's state is unchanged). -/
theorem invalid_range_rejected (s : ExamBookingSystem) (lo hi : Int)
    (h : hi < lo) : find_exams_in_range s lo hi = .error .invalidRange := by
  unfold find_exams_in_range
  rw [if_pos h]

/-- C8 witness: `find_in_range(60, 40)` on the empty index fails with
the invalid-range error (Scenario 6). -/
theorem invalid_range_rejected_witness :
    find_exams_in_range ExamBookingSystem.empty 60 40 = .error .invalidRange :=
  invalid_range_rejected ExamBookingSystem.empty 60 40 (by decide)

/-- C9: booking rooms 50, 45, 60, 42, 55 on five distinct days into the empty
index and then querying rooms 40–52 returns exactly the records for rooms 42,
45 and 50, in that ascending order (Scenario 1). -/
theorem scenario_range_40_52 :
    find_exams_in_range (bookList [examA, examB, examC, examD, examE]) 40 52 =
      .ok [examD, examB, examA] := by
  rfl

/-- C1: on every index built by a sequence of booking attempts and for all
`lo ≤ hi`, `find_exams_in_range lo hi` succeeds and returns exactly the booked
records with `lo ≤ location ≤ hi`, sorted strictly ascending by location, and
the result equals the linear scan over all booked records filtered by the same
predicate (`linearScanInRange`); on the empty index (`es = []`) this is the
empty sequence with no error. -/
theorem range_query_correct (es : List Exam) (lo hi : Int) (h : lo ≤ hi) :
    find_exams_in_range (bookList es) lo hi =
      .ok (linearScanInRange (bookList es) lo hi) ∧
    ∀ out, find_exams_in_range (bookList es) lo hi = .ok out →
      (out.map (fun e => e.location)).Sorted (· < ·) ∧
      ∀ e, e ∈ out ↔
        e ∈ inorder (bookList es).root ∧ lo ≤ e.location ∧ e.location ≤ hi := by
  have hb := bookList_isBST es
  have h1 := find_range_eq_scan (bookList es) lo hi hb h
  refine ⟨h1, ?_⟩
  intro out hout
  rw [h1] at hout
  simp only [Except.ok.injEq] at hout
  rw [← hout]
  constructor
  · rw [List.Sorted]
    exact List.pairwise_map.mpr
      (List.Pairwise.filter _ (inorder_pairwise_lt (bookList es).root hb))
  · intro e
    simp [linearScanInRange, List.mem_filter]

/-- C1 witness: `find_in_range(40, 52)` on an empty index returns the empty
sequence without error (Scenario 5). -/
theorem range_query_correct_witness :
    find_exams_in_range (bookList []) 40 52 = .ok [] := by
  have h := (range_query_correct [] 40 52 (by decide)).1
  rw [h]
  rfl

/-- C4: booking an exam that passes validation, whose location is stored in
the tree with the same calendar day, fails with the room-already-booked error
naming the room and the date; the returned value carries no new state and the
driver-loop step leaves the index (tree and size) unchanged. -/
theorem same_day_conflict_raises (es : List Exam) (e ex : Exam)
    (hv : validate_exam_data e = .ok true)
    (hmem : ex ∈ inorder (bookList es).root)
    (hloc : ex.location = e.location)
    (hday : ex.date.date = e.date.date) :
    book_exam (bookList es) e = .error (.roomAlreadyBooked e.location e.date) ∧
    applyBook (bookList es) e = bookList es := by
  have hb := bookList_isBST es
  have hfind : find_exam_by_location_and_date (bookList es).root e.location
      e.date = some ex :=
    (find_eq_some_iff (bookList es).root e.location e.date ex hb).mpr
      ⟨hmem, hloc, hday⟩
  have hmain : book_exam (bookList es) e =
      .error (.roomAlreadyBooked e.location e.date) := by
    rcases book_exam_cases (bookList es) e with ⟨err, hverr, he⟩ | ⟨_, _, he⟩ |
      ⟨_, hf, _, he⟩ | ⟨_, hf, _, he⟩
    · rw [hverr] at hv; exact Except.noConfusion hv
    · exact he
    · rw [hfind] at hf; exact Option.noConfusion hf
    · rw [hfind] at hf; exact Option.noConfusion hf
  refine ⟨hmain, ?_⟩
  unfold applyBook
  rw [hmain]

/-- C4 witness: Scenario 3 — book room 50 on 2024-12-01, then book room 50
again on 2024-12-01 with a different course id: the second call fails with the
room-already-booked error and the index is unchanged. -/
theorem same_day_conflict_raises_witness :
    book_exam (bookList [examA]) examDup50SameDay =
      .error (.roomAlreadyBooked 50 ⟨2024, 12, 1, 10, 0⟩) ∧
    applyBook (bookList [examA]) examDup50SameDay = bookList [examA] :=
  same_day_conflict_raises [examA] examDup50SameDay examA (by rfl) (by decide)
    (by decide) (by decide)

/-- C10: booking an exam that passes validation, whose location is already a
key in the tree but on a different calendar day than every record stored at
that location, raises no error: `book_exam` returns `False` and the system
(tree structure and size counter) is returned unchanged — the duplicate
location is signalled only by the `False` return value, unlike the same-day
case which raises. -/
theorem duplicate_location_returns_false_no_error (s : ExamBookingSystem)
    (e : Exam) (hb : s.root.isBST = true)
    (hv : validate_exam_data e = .ok true)
    (ex : Exam) (hmem : ex ∈ inorder s.root) (hloc : ex.location = e.location)
    (hday : ∀ ex2 ∈ inorder s.root, ex2.location = e.location →
      ex2.date.date ≠ e.date.date) :
    book_exam s e = .ok (false, s) := by
  have hfind : find_exam_by_location_and_date s.root e.location e.date = none :=
    (find_eq_none_iff s.root e.location e.date hb).mpr hday
  rcases book_exam_cases s e with ⟨err, hverr, he⟩ | ⟨_, ⟨ex2, hf⟩, he⟩ |
    ⟨_, hf, hr, he⟩ | ⟨_, hf, hr, he⟩
  · rw [hverr] at hv; exact Except.noConfusion hv
  · rw [hfind] at hf; exact Option.noConfusion hf
  · rw [hr] at hmem; simp [inorder] at hmem
  · rw [he]
    have hfalse : (insertRec s.root e).1 = false :=
      insertRec_mem_false s.root e hb ex hmem hloc
    have ht := insertRec_false_eq s.root e hfalse
    rw [hfalse, ht]
    simp

/-- C10 witness: after booking rooms 50 and 45, booking room 45 again on a
free day returns `False` with no error and leaves the index unchanged. -/
theorem duplicate_location_returns_false_no_error_witness :
    book_exam (bookList [examA, examB]) examDup45OtherDay =
      .ok (false, bookList [examA, examB]) :=
  duplicate_location_returns_false_no_error (bookList [examA, examB])
    examDup45OtherDay (by rfl) (by rfl) examB (by decide) (by decide)
    (by decide)

/-- C3 counterexample: Scenario 4 at concrete inputs — book room 50 on
2024-12-01, then book room 50 on 2024-12-05.  The second `book_exam` call does
NOT fail with an error: it returns `Except.ok` with the boolean `False` and
the unchanged system, so the claim that it "fails with DuplicateLocation" is
false on the code (no exception of any kind is raised; compare the
`roomAlreadyBooked` error of the same-day case). -/
theorem duplicate_location_raises_counterexample :
    book_exam (bookList [examA]) examDup50OtherDay =
      .ok (false, bookList [examA]) := by
  rfl

/-- C3 (amended): for every valid exam whose location already exists as a key
in the tree but whose date falls on a different calendar day than the stored
record, the second `book_exam` call is rejected by returning `False` — not by
raising an error — and no node is created: the tree and the size are
unchanged. -/
theorem duplicate_location_second_booking_returns_false (e1 e2 : Exam)
    (hv1 : validate_exam_data e1 = .ok true)
    (hv2 : validate_exam_data e2 = .ok true)
    (hloc : e2.location = e1.location)
    (hday : e2.date.date ≠ e1.date.date) :
    book_exam (bookList [e1]) e2 = .ok (false, bookList [e1]) := by
  have hs : bookList [e1] = ⟨.node .leaf e1 .leaf, 1⟩ := by
    simp [bookList, applyBook, book_exam, hv1, find_exam_by_location_and_date,
      ExamBookingSystem.empty]
  have hfind : find_exam_by_location_and_date (BookingTree.node .leaf e1 .leaf)
      e2.location e2.date = none := by
    rw [find_exam_by_location_and_date]
    rw [if_pos hloc, if_neg (fun hx => hday hx.symm)]
  have hins : insertRec (BookingTree.node .leaf e1 .leaf) e2 =
      (false, BookingTree.node .leaf e1 .leaf) := by
    rw [insertRec]
    rw [if_pos hloc]
  rw [hs]
  simp [book_exam, hv2, hfind, hins]

/-- C3 amended witness: the Scenario 4 inputs satisfy the hypotheses, and the
second call returns `False` with the index unchanged. -/
theorem duplicate_location_second_booking_returns_false_witness :
    book_exam (bookList [examA]) examDup50OtherDay =
      .ok (false, bookList [examA]) :=
  duplicate_location_second_booking_returns_false examA examDup50OtherDay
    (by rfl) (by rfl) (by decide) (by decide)

/-- C6: validation is fail-fast in the fixed order course id, location, date,
student count: the first violated predicate determines the error
(`invalidCourseId` for a course id not matching the pattern, `invalidLocation`
for a non-positive location, `invalidStudentCount` for a non-positive student
count; the date check — `isinstance(exam.date, datetime)` — cannot fail in the
typed embedding, so `invalidDate` never fires), the error propagates out of
`book_exam` before any tree mutation, and the driver-loop step leaves the
index unchanged. -/
theorem validation_fail_fast_order (s : ExamBookingSystem) (e : Exam) :
    (validCourseId e.course_id = false →
      validate_exam_data e = .error (.invalidCourseId e.course_id) ∧
      book_exam s e = .error (.invalidCourseId e.course_id) ∧
      applyBook s e = s) ∧
    (validCourseId e.course_id = true → e.location ≤ 0 →
      validate_exam_data e = .error (.invalidLocation e.location) ∧
      book_exam s e = .error (.invalidLocation e.location) ∧
      applyBook s e = s) ∧
    (validCourseId e.course_id = true → 0 < e.location → e.num_students ≤ 0 →
      validate_exam_data e = .error (.invalidStudentCount e.num_students) ∧
      book_exam s e = .error (.invalidStudentCount e.num_students) ∧
      applyBook s e = s) ∧
    (validCourseId e.course_id = true → 0 < e.location → 0 < e.num_students →
      validate_exam_data e = .ok true) := by
  have propagate : ∀ err, validate_exam_data e = .error err →
      book_exam s e = .error err ∧ applyBook s e = s := by
    intro err hv
    have hbe : book_exam s e = .error err := by
      simp only [book_exam, hv]
    refine ⟨hbe, ?_⟩
    unfold applyBook
    rw [hbe]
  refine ⟨?_, ?_, ?_, ?_⟩
  · intro hc
    have hv : validate_exam_data e = .error (.invalidCourseId e.course_id) := by
      simp [validate_exam_data, hc]
    exact ⟨hv, propagate _ hv⟩
  · intro hc hl
    have hv : validate_exam_data e = .error (.invalidLocation e.location) := by
      simp [validate_exam_data, hc, hl]
    exact ⟨hv, propagate _ hv⟩
  · intro hc hl hn
    have hv : validate_exam_data e =
        .error (.invalidStudentCount e.num_students) := by
      simp [validate_exam_data, hc, not_le.mpr hl, hn]
    exact ⟨hv, propagate _ hv⟩
  · intro hc hl hn
    simp [validate_exam_data, hc, not_le.mpr hl, not_le.mpr hn]

/-- C6 witness: the invalid course id `"CSE-1-1"` fails with the course-id
error (Scenario 2), and, with a valid course id and location, a negative
student count fails with the student-count error; in both cases the error
propagates out of `book_exam` and the empty index is unchanged. -/
theorem validation_fail_fast_order_witness :
    (validate_exam_data badCourseExam = .error (.invalidCourseId "CSE-1-1") ∧
      book_exam ExamBookingSystem.empty badCourseExam =
        .error (.invalidCourseId "CSE-1-1") ∧
      applyBook ExamBookingSystem.empty badCourseExam =
        ExamBookingSystem.empty) ∧
    (validate_exam_data badStudentsExam =
        .error (.invalidStudentCount (-5)) ∧
      book_exam ExamBookingSystem.empty badStudentsExam =
        .error (.invalidStudentCount (-5)) ∧
      applyBook ExamBookingSystem.empty badStudentsExam =
        ExamBookingSystem.empty) :=
  ⟨(validation_fail_fast_order ExamBookingSystem.empty badCourseExam).1
      (by rfl),
    (validation_fail_fast_order ExamBookingSystem.empty badStudentsExam).2.2.1
      (by rfl) (by decide) (by decide)⟩
